import Mathlib

/-!
# Shallow embedding of `Negentropy.h` (range-based set reconciliation)

This file embeds the single C++ source file `src/cpp/Negentropy.h` into Lean:

* machine integers (`uint64_t`) become `Nat` with explicit `% 2 ^ 64` where
  overflow matters;
* byte strings (`std::string` / `std::string_view`) become `List Nat`,
  each element a byte value;
* code that throws `negentropy::err` becomes `Except String`;
* `XorElem`'s fixed 32-byte zero-padded buffer is represented by the logical
  id (`id : List Nat`, the bytes passed to the constructor, always of length
  ≤ 32 in reachable states) together with the padding view `padId`.

Definitions follow the C++ source function by function; deviations forced by
the translation (iterators to list slices, in-place loops to recursion) are
noted in comments at the definition they concern.
-/

deriving instance DecidableEq for Except

namespace Negentropy

/-- Constant `MAX_U64 = std::numeric_limits<uint64_t>::max()`. -/
def MAXU64 : Nat := 2 ^ 64 - 1

/-- C++ `struct XorElem`: `timestamp` and the logical id (the bytes handed to
the constructor; the C++ stores them in a 32-byte zero-padded buffer together
with their length `idSize`, so the pair `(timestamp, id)` carries the same
information; `idSize` is `id.length`). -/
structure XorElem where
  timestamp : Nat
  id : List Nat
deriving DecidableEq, Repr

instance : Inhabited XorElem := ⟨⟨0, []⟩⟩

/-- The 32-byte zero-padded buffer `XorElem::id` (`memset` to zero, then
`memcpy` of the logical id). Total for any length; in reachable states
`id.length ≤ 32` and this is `id ++ zeros`. -/
def padId (e : XorElem) : List Nat :=
  (e.id ++ List.replicate 32 0).take 32

/-- Method `XorElem::getId()` — view of the first `idSize` buffer bytes, i.e. the
logical id. -/
def getId (e : XorElem) : List Nat := e.id

/-- Method `XorElem::getId(subSize)` = `getId().substr(0, subSize)`. -/
def getIdSub (e : XorElem) (subSize : Nat) : List Nat := e.id.take subSize

/-- Comparison `std::string_view::operator<`: lexicographic byte comparison, a strict
prefix compares smaller. -/
def lexLt : List Nat → List Nat → Bool
  | _, [] => false
  | [], _ :: _ => true
  | a :: as, b :: bs => if a < b then true else if a = b then lexLt as bs else false

/-- Comparison `operator<(XorElem, XorElem)`:
`a.timestamp != b.timestamp ? a.timestamp < b.timestamp : a.getId() < b.getId()`. -/
def elemLt (a b : XorElem) : Bool :=
  if a.timestamp ≠ b.timestamp then a.timestamp < b.timestamp else lexLt a.id b.id

/-- Operator `XorElem::operator^=`: byte-wise XOR of the two 32-byte buffers.  The C++
accumulator `ourXorSet` starts as the default `XorElem()` (timestamp 0,
all-zero buffer); only its buffer is ever read afterwards, so we model the
accumulated buffer directly. -/
def xorBuf (a b : List Nat) : List Nat := List.zipWith Nat.xor a b

/-- XOR of the padded buffers of a list of elements, starting from the
default all-zero `XorElem()` buffer — the `ourXorSet` accumulation loops. -/
def xorRange (items : List XorElem) : List Nat :=
  items.foldl (fun acc e => xorBuf acc (padId e)) (List.replicate 32 0)

/-- Fingerprint bytes as emitted on the wire: `ourXorSet.getId(idSize)`,
i.e. the 32-byte XOR truncated to `idSize`. -/
def fingerprintBytes (idSize : Nat) (items : List XorElem) : List Nat :=
  (xorRange items).take idSize

/-! ## Codec -/

/-- Loop body of `encodeVarInt`: `while (n) { o.push_back(n & 0x7F); n >>= 7; }` —
little-endian 7-bit groups.  The loop is bounded by an explicit fuel so that
the definition is structurally recursive (and hence kernel-reducible); fuel
`n` always suffices since `n / 128 < n`, see `varIntGroups_eq`. -/
def varIntGroupsFuel : Nat → Nat → List Nat
  | _, 0 => []
  | n, fuel + 1 => if n = 0 then [] else n % 128 :: varIntGroupsFuel (n / 128) fuel

/-- Little-endian 7-bit groups of `n` — the fuelled loop run to completion. -/
def varIntGroups (n : Nat) : List Nat := varIntGroupsFuel n n

/-- Loop `for (i in [0, size-1)) o[i] |= 0x80;` — set the continuation bit on every
byte but the last. -/
def markContinuation : List Nat → List Nat
  | [] => []
  | [b] => [b]
  | b :: rest => (b ||| 128) :: markContinuation rest

/-- Function `Negentropy::encodeVarInt`. -/
def encodeVarInt (n : Nat) : List Nat :=
  if n = 0 then [0] else markContinuation (varIntGroups n).reverse

/-- The mathematical value of a big-endian group list continued from `res`. -/
def groupsVal (res : Nat) : List Nat → Nat
  | [] => res
  | b :: rest => groupsVal (res * 128 + b) rest

/-- Loop of `Negentropy::decodeVarInt` with accumulator `res`;
`res = (res << 7) | (byte & 0x7F)` in `uint64_t`, hence the `% 2 ^ 64`.
Reading past the end throws `"premature end of varint"`. -/
def decodeVarIntCore : List Nat → Nat → Except String (Nat × List Nat)
  | [], _ => .error "premature end of varint"
  | b :: rest, res =>
    let res' := (res * 128) % 2 ^ 64 ||| b % 128
    if b < 128 then .ok (res', rest) else decodeVarIntCore rest res'

/-- Function `Negentropy::decodeVarInt`, returning the value and the unconsumed
bytes. -/
def decodeVarInt (encoded : List Nat) : Except String (Nat × List Nat) :=
  decodeVarIntCore encoded 0

/-- Function `Negentropy::getBytes`: take `n` bytes or throw `"parse ends
prematurely"`. -/
def getBytes (encoded : List Nat) (n : Nat) : Except String (List Nat × List Nat) :=
  if encoded.length < n then .error "parse ends prematurely"
  else .ok (encoded.take n, encoded.drop n)

/-- Function `Negentropy::decodeTimestampIn`.  Returns the decoded timestamp, the new
`lastTimestampIn`, and the unconsumed bytes.  The C++ additions are
`uint64_t`, hence the `% 2 ^ 64`; `timestamp < lastTimestampIn` detects wrap
and saturates to `MAX_U64`. -/
def decodeTimestampIn (encoded : List Nat) (lastTimestampIn : Nat) :
    Except String (Nat × Nat × List Nat) :=
  match decodeVarInt encoded with
  | .error e => .error e
  | .ok (v, rest) =>
    let t := if v = 0 then MAXU64 else v - 1
    let t := (t + lastTimestampIn) % 2 ^ 64
    let t := if t < lastTimestampIn then MAXU64 else t
    .ok (t, t, rest)

/-- Function `Negentropy::decodeBound`.  The `XorElem` constructor throws
`"id too big"` when the id length exceeds 32. -/
def decodeBound (encoded : List Nat) (lastTimestampIn : Nat) :
    Except String (XorElem × Nat × List Nat) :=
  match decodeTimestampIn encoded lastTimestampIn with
  | .error e => .error e
  | .ok (t, last', rest) =>
    match decodeVarInt rest with
    | .error e => .error e
    | .ok (len, rest) =>
      match getBytes rest len with
      | .error e => .error e
      | .ok (idBytes, rest) =>
        if 32 < idBytes.length then .error "id too big"
        else .ok (⟨t, idBytes⟩, last', rest)

/-- Function `Negentropy::encodeTimestampOut`.  Returns the bytes and the new
`lastTimestampOut`.  The subtraction `timestamp -= lastTimestampOut` is
`uint64_t` arithmetic, modelled as `(t + 2^64 - last) % 2^64`; the `+ 1`
also wraps. -/
def encodeTimestampOut (timestamp lastTimestampOut : Nat) : List Nat × Nat :=
  if timestamp = MAXU64 then (encodeVarInt 0, MAXU64)
  else
    let delta := (timestamp + 2 ^ 64 - lastTimestampOut) % 2 ^ 64
    (encodeVarInt ((delta + 1) % 2 ^ 64), timestamp)

/-- Function `Negentropy::encodeBound` (`idSize` is the session parameter): timestamp,
then `varint(bound.idSize)`, then `bound.getId(idSize)`. -/
def encodeBound (idSize : Nat) (bound : XorElem) (lastTimestampOut : Nat) :
    List Nat × Nat :=
  let (ts, last') := encodeTimestampOut bound.timestamp lastTimestampOut
  (ts ++ encodeVarInt bound.id.length ++ getIdSub bound idSize, last')

/-- Function `Negentropy::encodeBitField`: byte `ind / 8` gets bit `1 << (ind % 8)`. -/
def encodeBitField (inds : List Nat) : List Nat :=
  if inds = [] then []
  else
    let m := inds.foldl max 0
    inds.foldl (fun bf ind => bf.set (ind / 8) (bf.getD (ind / 8) 0 ||| 1 <<< (ind % 8)))
      (List.replicate ((m + 8) / 8) 0)

/-- Function `Negentropy::bitFieldLookup`. -/
def bitFieldLookup (bitField : List Nat) (ind : Nat) : Bool :=
  if bitField.length < (ind + 8) / 8 then false
  else (bitField.getD (ind / 8) 0) &&& 1 <<< (ind % 8) ≠ 0

/-! ## Range engine -/

/-- The shared-prefix loop of `Negentropy::getMinimalBound`:
`for (i in [0, idSize)) { if (currKey[i] != prevKey[i]) break; shared++; }`.
The C++ indexes the key views beyond their logical length when an id is
shorter than `idSize`; those reads land in the zero padding of the 32-byte
buffer, which `getD _ 0` reproduces. -/
def countShared : List Nat → List Nat → Nat → Nat
  | _, _, 0 => 0
  | p, c, fuel + 1 =>
    if c.getD 0 0 = p.getD 0 0 then countShared (p.drop 1) (c.drop 1) fuel + 1 else 0

/-- Function `Negentropy::getMinimalBound` (`idSize` is the session parameter). -/
def getMinimalBound (idSize : Nat) (prev curr : XorElem) : XorElem :=
  if curr.timestamp ≠ prev.timestamp then ⟨curr.timestamp, []⟩
  else ⟨curr.timestamp, curr.id.take (countShared prev.id curr.id idSize + 1)⟩

/-- Struct `Negentropy::BoundOutput`. -/
structure BoundOutput where
  start : XorElem
  «end» : XorElem
  payload : List Nat
deriving DecidableEq, Repr

instance : Inhabited BoundOutput := ⟨⟨default, default, []⟩⟩

/-- Splitting the item slice into consecutive chunks of the given sizes —
the sequential `curr`/`bucketEnd` iterator walk of `splitRange`. -/
def splitSizes (xs : List XorElem) : List Nat → List (List XorElem)
  | [] => []
  | s :: rest => xs.take s :: splitSizes (xs.drop s) rest

/-- The bucket sizes of `splitRange`:
`itemsPerBucket + (i < bucketsWithExtra ? 1 : 0)` for `i < 16`. -/
def bucketSizes (numElems : Nat) : List Nat :=
  (List.range 16).map fun i => numElems / 16 + if i < numElems % 16 then 1 else 0

/-- Fingerprint-record payload: `encodeVarInt(1) ++ ourXorSet.getId(idSize)`. -/
def fpPayload (idSize : Nat) (bucket : List XorElem) : List Nat :=
  encodeVarInt 1 ++ fingerprintBytes idSize bucket

/-- The per-bucket record emission loop of `splitRange` (large branch).  Each
record's start is the previous record's end (`prevBound` update), the first
start is `lowerBound` and each end is the minimal bound between the bucket's
last item and the next bucket's first item.  For the last bucket the C++
computes a provisional end (dereferencing the one-past-the-bucket iterator)
and then overwrites it with `upperBound` (`outputs.back().end = upperBound`);
we emit that final end directly. -/
def fpRecords (idSize : Nat) (start : XorElem) (upperBound : XorElem) :
    List (List XorElem) → List BoundOutput
  | [] => []
  | [b] => [⟨start, upperBound, fpPayload idSize b⟩]
  | b :: b' :: rest =>
    let e := getMinimalBound idSize (b.getLastD default) (b'.headD default)
    ⟨start, e, fpPayload idSize b⟩ :: fpRecords idSize e upperBound (b' :: rest)

/-- Function `Negentropy::splitRange` acting on the slice `items[lower..upper]`.
Returns the records appended to `outputs` (the caller appends them in
order). -/
def splitRange (idSize : Nat) (items : List XorElem) (lowerBound upperBound : XorElem) :
    List BoundOutput :=
  let numElems := items.length
  let buckets := 16
  if numElems < buckets * 2 then
    [⟨lowerBound, upperBound,
      encodeVarInt 2 ++ encodeVarInt numElems ++ (items.map fun e => getIdSub e idSize).flatten⟩]
  else
    fpRecords idSize lowerBound upperBound (splitSizes items (bucketSizes numElems))

/-! ## Output scheduler -/

/-- The bytes one iteration of `buildOutput` appends for the pending record
`p` (the `Skip` filler when `currBound ≠ p.start`, then the end bound and the
payload), together with the updated `lastTimestampOut`. -/
def encodeRecordBytes (idSize : Nat) (currBound : XorElem) (lastTimestampOut : Nat)
    (p : BoundOutput) : List Nat × Nat :=
  if currBound ≠ p.start then
    let b1 := encodeBound idSize p.start lastTimestampOut
    let b2 := encodeBound idSize p.«end» b1.2
    (b1.1 ++ encodeVarInt 0 ++ b2.1 ++ p.payload, b2.2)
  else
    let b2 := encodeBound idSize p.«end» lastTimestampOut
    (b2.1 ++ p.payload, b2.2)

/-- Loop `while (pendingOutputs.size())` body of `Negentropy::buildOutput`,
with the frame accumulated in `output`.  Returns the frame and the pending
outputs that remain queued. -/
def buildOutputAux (frameSizeLimit idSize : Nat) :
    XorElem → Nat → List Nat → List BoundOutput → List Nat × List BoundOutput
  | _, _, output, [] => (output, [])
  | currBound, lastTimestampOut, output, p :: rest =>
    if elemLt p.start currBound then (output, p :: rest)
    else
      let o := (encodeRecordBytes idSize currBound lastTimestampOut p).1
      let last' := (encodeRecordBytes idSize currBound lastTimestampOut p).2
      if frameSizeLimit ≠ 0 ∧ frameSizeLimit < output.length + o.length then (output, p :: rest)
      else buildOutputAux frameSizeLimit idSize p.«end» last' (output ++ o) rest

/-- Function `Negentropy::buildOutput`. -/
def buildOutput (frameSizeLimit idSize : Nat) (pending : List BoundOutput) :
    List Nat × List BoundOutput :=
  buildOutputAux frameSizeLimit idSize ⟨0, []⟩ 0 [] pending

/-- Unconditional encoding of a record sequence (no frame cap, no
monotonicity stop): what a sequence of `buildOutput` iterations emits for
exactly these records.  Used to state that frames are whole-record
prefixes. -/
def encodeRecords (idSize : Nat) : XorElem → Nat → List BoundOutput → List Nat
  | _, _, [] => []
  | currBound, lastTimestampOut, p :: rest =>
    (encodeRecordBytes idSize currBound lastTimestampOut p).1 ++
      encodeRecords idSize p.«end» (encodeRecordBytes idSize currBound lastTimestampOut p).2 rest

/-! ## Reconciliation (`reconcileAux` and the public entry points) -/

/-- Reading `numIds` ids of `idSize` bytes each:
`for (i < numIds) getBytes(query, idSize)`. -/
def getIdList (idSize : Nat) : Nat → List Nat → Except String (List (List Nat) × List Nat)
  | 0, q => .ok ([], q)
  | n + 1, q =>
    match getBytes q idSize with
    | .error e => .error e
    | .ok (id, rest) =>
      match getIdList idSize n rest with
      | .error e => .error e
      | .ok (ids, rest') => .ok (id :: ids, rest')

/-- Entry of the `theirElems` map: key, offset, `onBothSides` flag. -/
abbrev TheirElem := List Nat × Nat × Bool

/-- C++ `theirElems.emplace(e, TheirElem{i, false})` on `std::unordered_map`:
inserts only if the key is absent (a duplicate id keeps the first offset).
The C++ map's iteration order is unspecified; we keep insertion order, which
fixes one admissible order for the `needIds` / `responseNeedIndices`
collection below. -/
def emplaceElem (m : List TheirElem) (k : List Nat) (off : Nat) : List TheirElem :=
  if (m.find? fun p => p.1 == k).isSome then m else m ++ [(k, off, false)]

/-- Building `theirElems` from the decoded id list. -/
def buildTheirElems (ids : List (List Nat)) : List TheirElem :=
  ids.enum.foldl (fun m p => emplaceElem m p.2 p.1) []

/-- The walk over the local items of the range in mode 2: each local id
missing from `theirElems` is collected (in item order), each present one
marks its entry's `onBothSides` flag. -/
def scanLocal (m : List TheirElem) (range : List XorElem) :
    List TheirElem × List (List Nat) :=
  range.foldl
    (fun acc e =>
      if (acc.1.find? fun p => p.1 == e.id).isSome then
        (acc.1.map fun p => if p.1 == e.id then (p.1, p.2.1, true) else p, acc.2)
      else (acc.1, acc.2 ++ [e.id]))
    (m, [])

/-- Accumulated results of one `reconcileAux` pass: the `haveIds` / `needIds`
sinks and the `outputs` deque. -/
structure RecState where
  haveIds : List (List Nat)
  needIds : List (List Nat)
  outputs : List BoundOutput
deriving DecidableEq, Repr

/-- One record body of the `reconcileAux` loop, after the bound and mode have
been decoded: the four-way mode dispatch.  `range` is the item slice
`items[lower..upper]` delimited by `prevIndex` and
`upper_bound(currBound)`. -/
def processMode (idSize : Nat) (isInitiator : Bool) (mode : Nat)
    (prevBound currBound : XorElem) (range : List XorElem) (q : List Nat) (st : RecState) :
    Except String (RecState × List Nat) :=
  if mode = 0 then
    .ok (st, q)
  else if mode = 1 then
    match getBytes q idSize with
    | .error e => .error e
    | .ok (theirFp, q) =>
      if theirFp ≠ fingerprintBytes idSize range then
        .ok ({ st with outputs := st.outputs ++ splitRange idSize range prevBound currBound }, q)
      else .ok (st, q)
  else if mode = 2 then
    match decodeVarInt q with
    | .error e => .error e
    | .ok (numIds, q) =>
      match getIdList idSize numIds q with
      | .error e => .error e
      | .ok (theirIds, q) =>
        let scanned := scanLocal (buildTheirElems theirIds) range
        let missing := scanned.1.filter fun p => !p.2.2
        if isInitiator then
          .ok ({ st with haveIds := st.haveIds ++ scanned.2,
                         needIds := st.needIds ++ missing.map (·.1) }, q)
        else
          let responseHaveIds := scanned.2
          let bitField := encodeBitField (missing.map fun p => p.2.1)
          let payload := encodeVarInt 3 ++ encodeVarInt responseHaveIds.length
            ++ responseHaveIds.flatten ++ encodeVarInt bitField.length ++ bitField
          .ok ({ st with outputs := st.outputs ++ [⟨prevBound, currBound, payload⟩] }, q)
  else if mode = 3 then
    if !isInitiator then .error "unexpected IdListResponse"
    else
      match decodeVarInt q with
      | .error e => .error e
      | .ok (numIds, q) =>
        match getIdList idSize numIds q with
        | .error e => .error e
        | .ok (ids, q) =>
          match decodeVarInt q with
          | .error e => .error e
          | .ok (bitFieldSize, q) =>
            match getBytes q bitFieldSize with
            | .error e => .error e
            | .ok (bitField, q) =>
              let haves := (range.enum.filter fun p => bitFieldLookup bitField p.1).map
                fun p => p.2.id
              .ok ({ st with needIds := st.needIds ++ ids, haveIds := st.haveIds ++ haves }, q)
  else .error "unexpected mode"

/-- Loop `while (query.size())` of `Negentropy::reconcileAux`.  The C++
delimits the current range by the iterators `prevIndex` (`lower`) and
`std::upper_bound(prevIndex, items.end(), currBound)` (`upper`); on the
sorted `items` this upper bound is the partition point of `currBound < ·`,
so with `remaining = items[prevIndex..]` the slice `items[lower..upper]` is
`takeWhile (¬ currBound < ·) remaining` and the new `remaining` is the
matching `dropWhile`. -/
def reconcileLoopFuel (idSize : Nat) (isInitiator : Bool) :
    Nat → List Nat → XorElem → List XorElem → Nat → RecState → Except String RecState
  | _, [], _, _, _, st => .ok st
  | 0, _ :: _, _, _, _, _ => .error "loop fuel exhausted"
  | fuel + 1, b :: bs, prevBound, remaining, lastTimestampIn, st =>
    match decodeBound (b :: bs) lastTimestampIn with
    | .error e => .error e
    | .ok (currBound, last', q1) =>
      match decodeVarInt q1 with
      | .error e => .error e
      | .ok (mode, q2) =>
        let range := remaining.takeWhile fun e => !elemLt currBound e
        let rest := remaining.dropWhile fun e => !elemLt currBound e
        match processMode idSize isInitiator mode prevBound currBound range q2 st with
        | .error e => .error e
        | .ok (st', q') => reconcileLoopFuel idSize isInitiator fuel q' currBound rest last' st'

/-- Loop `while (query.size())` of `reconcileAux`, run with fuel
`query.length`, which always suffices because every iteration consumes at
least the one byte of the bound's timestamp varint
(`reconcileLoopFuel_congr`). -/
def reconcileLoop (idSize : Nat) (isInitiator : Bool) (query : List Nat)
    (prevBound : XorElem) (remaining : List XorElem) (lastTimestampIn : Nat)
    (st : RecState) : Except String RecState :=
  reconcileLoopFuel idSize isInitiator query.length query prevBound remaining lastTimestampIn st

/-- C++ `struct Negentropy` — the Reconciler's session state. -/
structure Reconciler where
  idSize : Nat
  items : List XorElem
  sealed : Bool
  isInitiator : Bool
  frameSizeLimit : Nat
  pendingOutputs : List BoundOutput
deriving DecidableEq, Repr

/-- Constructor `Negentropy(idSize)`. -/
def mkReconciler (idSize : Nat) : Except String Reconciler :=
  if idSize < 8 ∨ 32 < idSize then .error "idSize invalid"
  else .ok ⟨idSize, [], false, false, 0, []⟩

/-- Method `Negentropy::addItem`. -/
def addItem (st : Reconciler) (createdAt : Nat) (id : List Nat) : Except String Reconciler :=
  if st.sealed then .error "already sealed"
  else if 32 < id.length then .error "id too big"
  else .ok { st with items := st.items ++ [⟨createdAt, id⟩] }

/-- Method `Negentropy::seal`: sort ascending and freeze.  The C++ first
reverses (a performance hint) and then runs `std::sort` with `operator<`;
since elements that compare equal are byte-for-byte identical, every sorted
permutation is the same list, which `mergeSort` by `¬ b < a` produces. -/
def sealReconciler (st : Reconciler) : Except String Reconciler :=
  if st.sealed then .error "already sealed"
  else .ok { st with items := st.items.mergeSort (fun a b => !elemLt b a), sealed := true }

/-- Method `Negentropy::reconcileAux`: run the record loop and prepend the
fresh outputs, in order, to `pendingOutputs`. -/
def reconcileAux (st : Reconciler) (query : List Nat) :
    Except String (List (List Nat) × List (List Nat) × Reconciler) :=
  if !st.sealed then .error "not sealed"
  else
    match reconcileLoop st.idSize st.isInitiator query ⟨0, []⟩ st.items 0 ⟨[], [], []⟩ with
    | .error e => .error e
    | .ok r => .ok (r.haveIds, r.needIds,
        { st with pendingOutputs := r.outputs ++ st.pendingOutputs })

/-- Responder-style `Negentropy::reconcile(query)`: the have/need sinks are
local and discarded. -/
def reconcile (st : Reconciler) (query : List Nat) : Except String (List Nat × Reconciler) :=
  if st.isInitiator then .error "initiator not asking for have/need IDs"
  else
    match reconcileAux st query with
    | .error e => .error e
    | .ok (_, _, st') =>
      let (frame, pending') := buildOutput st'.frameSizeLimit st'.idSize st'.pendingOutputs
      .ok (frame, { st' with pendingOutputs := pending' })

/-- Initiator-style `Negentropy::reconcile(query, haveIds, needIds)`. -/
def reconcileWithHaveNeed (st : Reconciler) (query : List Nat) :
    Except String (List (List Nat) × List (List Nat) × List Nat × Reconciler) :=
  if !st.isInitiator then .error "non-initiator asking for have/need IDs"
  else
    match reconcileAux st query with
    | .error e => .error e
    | .ok (haveIds, needIds, st') =>
      let (frame, pending') := buildOutput st'.frameSizeLimit st'.idSize st'.pendingOutputs
      .ok (haveIds, needIds, frame, { st' with pendingOutputs := pending' })

/-- Method `Negentropy::initiate`. -/
def initiate (st : Reconciler) (frameSizeLimit : Nat) : Except String (List Nat × Reconciler) :=
  if !st.sealed then .error "not sealed"
  else if frameSizeLimit ≠ 0 ∧ frameSizeLimit < 1024 then .error "frameSizeLimit too small"
  else
    let st := { st with isInitiator := true, frameSizeLimit := frameSizeLimit }
    let pending := st.pendingOutputs ++ splitRange st.idSize st.items ⟨0, []⟩ ⟨MAXU64, []⟩
    let (frame, pending') := buildOutput st.frameSizeLimit st.idSize pending
    .ok (frame, { st with pendingOutputs := pending' })

/-! ## Claim-support definitions: timestamp sequences -/

/-- Encoding a sequence of timestamps with `encodeTimestampOut`, threading
`lastTimestampOut`. -/
def encodeTimestampSeq (lastTimestampOut : Nat) : List Nat → List Nat
  | [] => []
  | t :: ts =>
    (encodeTimestampOut t lastTimestampOut).1 ++
      encodeTimestampSeq (encodeTimestampOut t lastTimestampOut).2 ts

/-- Decoding `count` timestamps with `decodeTimestampIn`, threading
`lastTimestampIn`. -/
def decodeTimestampSeq (lastTimestampIn : Nat) : Nat → List Nat → Except String (List Nat × List Nat)
  | 0, q => .ok ([], q)
  | n + 1, q =>
    match decodeTimestampIn q lastTimestampIn with
    | .error e => .error e
    | .ok (t, last', rest) =>
      match decodeTimestampSeq last' n rest with
      | .error e => .error e
      | .ok (ts, rest') => .ok (t :: ts, rest')

/-- A timestamp sequence that never decreases below the threaded encoder
state `s`: each element is a `uint64` value at least the previous one (after
a `U64_MAX` sentinel only `U64_MAX` may follow). -/
def goodTimestampSeq (s : Nat) : List Nat → Prop
  | [] => True
  | t :: ts => s ≤ t ∧ t < 2 ^ 64 ∧ goodTimestampSeq t ts


/-! ## Claim-support definitions: specification-side description of
`splitRange` (closed-form buckets, following the spec text §4.4) -/

/-- Offset-based slice: the prefix-sum of the first `i` sizes gives the
start of chunk `i` of a sequential split. -/
def sliceAt (xs : List XorElem) (sizes : List Nat) (i : Nat) : List XorElem :=
  (xs.drop ((sizes.take i).sum)).take (sizes.getD i 0)

/-- Separating bound between chunk `i` and chunk `i + 1` of a sequential
split: the minimal bound between the last item of chunk `i` and the first
item of chunk `i + 1`. -/
def sepAt (idSize : Nat) (xs : List XorElem) (sizes : List Nat) (i : Nat) : XorElem :=
  getMinimalBound idSize ((sliceAt xs sizes i).getLastD default)
    ((sliceAt xs sizes (i + 1)).headD default)

/-- Spec-side bucket `i` of the 16-way partition: a contiguous slice of
size `numElems / 16`, plus one extra item for the first `numElems % 16`
buckets, starting where the previous buckets end. -/
def bucketSlice (items : List XorElem) (i : Nat) : List XorElem :=
  (items.drop (i * (items.length / 16) + min i (items.length % 16))).take
    (items.length / 16 + if i < items.length % 16 then 1 else 0)

/-- Spec-side separating bound between bucket `i` and bucket `i + 1`. -/
def sepBound (idSize : Nat) (items : List XorElem) (i : Nat) : XorElem :=
  getMinimalBound idSize ((bucketSlice items i).getLastD default)
    ((bucketSlice items (i + 1)).headD default)

/-- Specification-side description of `splitRange`, written from the spec's
words: fewer than `2 * 16` elements give a single IdList record over
`(lowerBound, upperBound)`; otherwise one Fingerprint record per bucket of
the closed-form 16-way partition, the first record starting at
`lowerBound`, each record starting where the previous one ends, each end
being the minimal separating bound, and the last end being `upperBound`. -/
def splitRangeSpec (idSize : Nat) (items : List XorElem) (lowerBound upperBound : XorElem) :
    List BoundOutput :=
  if items.length < 2 * 16 then
    [⟨lowerBound, upperBound,
      encodeVarInt 2 ++ encodeVarInt items.length ++
        (items.map fun e => getIdSub e idSize).flatten⟩]
  else
    (List.range 16).map fun i =>
      ⟨if i = 0 then lowerBound else sepBound idSize items (i - 1),
       if i = 15 then upperBound else sepBound idSize items i,
       fpPayload idSize (bucketSlice items i)⟩

/-! ### Varint round-trip lemmas -/

theorem varIntGroupsFuel_congr : ∀ (f g n : Nat), n ≤ f → n ≤ g →
    varIntGroupsFuel n f = varIntGroupsFuel n g := by
  intro f
  induction f with
  | zero =>
    intro g n hf hg
    have : n = 0 := by omega
    subst this
    cases g <;> simp [varIntGroupsFuel]
  | succ f ih =>
    intro g n hf hg
    by_cases h0 : n = 0
    · subst h0
      cases g <;> simp [varIntGroupsFuel]
    · cases g with
      | zero => omega
      | succ g =>
        simp only [varIntGroupsFuel, if_neg h0]
        have hdiv : n / 128 < n := Nat.div_lt_self (Nat.pos_of_ne_zero h0) (by omega)
        rw [ih g (n / 128) (by omega) (by omega)]

/-- Unfolding equation of the `encodeVarInt` loop. -/
theorem varIntGroups_eq (n : Nat) :
    varIntGroups n = if n = 0 then [] else n % 128 :: varIntGroups (n / 128) := by
  by_cases h0 : n = 0
  · subst h0; simp [varIntGroups, varIntGroupsFuel]
  · rw [if_neg h0]
    show varIntGroupsFuel n n = _
    cases n with
    | zero => exact absurd rfl h0
    | succ m =>
      simp only [varIntGroupsFuel, if_neg h0]
      have hdiv : (m + 1) / 128 < m + 1 := Nat.div_lt_self (by omega) (by omega)
      rw [varIntGroupsFuel_congr m ((m + 1) / 128) ((m + 1) / 128) (by omega) (Nat.le_refl _)]
      rfl

theorem decodeVarIntCore_length {q : List Nat} {res v : Nat} {rest : List Nat}
    (h : decodeVarIntCore q res = .ok (v, rest)) : rest.length < q.length := by
  induction q generalizing res with
  | nil => simp [decodeVarIntCore] at h
  | cons b q ih =>
    simp only [decodeVarIntCore] at h
    by_cases hb : b < 128
    · rw [if_pos hb] at h
      cases h
      simp
    · rw [if_neg hb] at h
      have := ih h
      simp only [List.length_cons]
      omega

theorem decodeVarInt_length {q : List Nat} {v : Nat} {rest : List Nat}
    (h : decodeVarInt q = .ok (v, rest)) : rest.length < q.length :=
  decodeVarIntCore_length h

theorem getBytes_length {q : List Nat} {n : Nat} {bs rest : List Nat}
    (h : getBytes q n = .ok (bs, rest)) : rest.length ≤ q.length := by
  rw [getBytes] at h
  split at h
  · cases h
  · cases h
    simp

theorem decodeTimestampIn_length {q : List Nat} {last t l : Nat} {rest : List Nat}
    (h : decodeTimestampIn q last = .ok (t, l, rest)) : rest.length < q.length := by
  rw [decodeTimestampIn] at h
  split at h
  · cases h
  · rename_i v r heq
    cases h
    exact decodeVarInt_length heq

theorem decodeBound_length {q : List Nat} {last : Nat} {b : XorElem} {l : Nat}
    {rest : List Nat} (h : decodeBound q last = .ok (b, l, rest)) :
    rest.length < q.length := by
  rw [decodeBound] at h
  split at h
  · cases h
  · rename_i t last' r1 h1
    split at h
    · cases h
    · rename_i len r2 h2
      split at h
      · cases h
      · rename_i idBytes r3 h3
        split at h
        · cases h
        · cases h
          have e1 := decodeTimestampIn_length h1
          have e2 := decodeVarInt_length h2
          have e3 := getBytes_length h3
          omega

theorem getIdList_length {idSize n : Nat} {q : List Nat} {ids : List (List Nat)}
    {rest : List Nat} (h : getIdList idSize n q = .ok (ids, rest)) :
    rest.length ≤ q.length := by
  induction n generalizing q ids with
  | zero =>
    rw [getIdList] at h
    cases h
    exact Nat.le_refl _
  | succ n ih =>
    rw [getIdList] at h
    split at h
    · cases h
    · rename_i id r1 h1
      split at h
      · cases h
      · rename_i ids' r2 h2
        cases h
        have := ih h2
        have := getBytes_length h1
        omega

theorem processMode_length {idSize : Nat} {isInitiator : Bool} {mode : Nat}
    {prevBound currBound : XorElem} {range : List XorElem} {q : List Nat} {st : RecState}
    {st' : RecState} {q' : List Nat}
    (h : processMode idSize isInitiator mode prevBound currBound range q st = .ok (st', q')) :
    q'.length ≤ q.length := by
  rw [processMode] at h
  split at h
  · cases h; exact Nat.le_refl _
  · split at h
    · -- mode 1
      split at h
      · cases h
      · rename_i theirFp r1 h1
        have e1 := getBytes_length h1
        split at h <;> (cases h; exact e1)
    · split at h
      · -- mode 2
        split at h
        · cases h
        · rename_i numIds r1 h1
          split at h
          · cases h
          · rename_i theirIds r2 h2
            have e1 := decodeVarInt_length h1
            have e2 := getIdList_length h2
            split at h <;> (cases h; omega)
      · split at h
        · -- mode 3
          split at h
          · cases h
          · split at h
            · cases h
            · rename_i numIds r1 h1
              split at h
              · cases h
              · rename_i ids r2 h2
                split at h
                · cases h
                · rename_i bitFieldSize r3 h3
                  split at h
                  · cases h
                  · rename_i bitField r4 h4
                    cases h
                    have e1 := decodeVarInt_length h1
                    have e2 := getIdList_length h2
                    have e3 := decodeVarInt_length h3
                    have e4 := getBytes_length h4
                    omega
        · cases h

/-- Any fuel of at least `query.length` gives the same result: the fuelled
loop is the exact semantics of the C++ `while` loop. -/
theorem reconcileLoopFuel_congr (idSize : Nat) (isInitiator : Bool) :
    ∀ {f g : Nat} {query : List Nat} {prevBound : XorElem} {remaining : List XorElem}
      {lastTimestampIn : Nat} {st : RecState}, query.length ≤ f → query.length ≤ g →
    reconcileLoopFuel idSize isInitiator f query prevBound remaining lastTimestampIn st =
      reconcileLoopFuel idSize isInitiator g query prevBound remaining lastTimestampIn st := by
  intro f
  induction f with
  | zero =>
    intro g query prevBound remaining lastTimestampIn st hf hg
    have : query = [] := by
      cases query with
      | nil => rfl
      | cons b bs => simp at hf
    subst this
    cases g <;> rfl
  | succ f ih =>
    intro g query prevBound remaining lastTimestampIn st hf hg
    cases query with
    | nil => cases g <;> rfl
    | cons b bs =>
      cases g with
      | zero => simp at hg
      | succ g =>
        cases hb : decodeBound (b :: bs) lastTimestampIn with
        | error e => simp [reconcileLoopFuel, hb]
        | ok r =>
          obtain ⟨currBound, last', q1⟩ := r
          cases hm : decodeVarInt q1 with
          | error e => simp [reconcileLoopFuel, hb, hm]
          | ok r2 =>
            obtain ⟨mode, q2⟩ := r2
            cases hp : processMode idSize isInitiator mode prevBound currBound
                (remaining.takeWhile fun e => !elemLt currBound e) q2 st with
            | error e => simp [reconcileLoopFuel, hb, hm, hp]
            | ok r3 =>
              obtain ⟨st', q'⟩ := r3
              have e1 := decodeBound_length hb
              have e2 := decodeVarInt_length hm
              have e3 := processMode_length hp
              simp only [List.length_cons] at hf hg e1
              simp only [reconcileLoopFuel, hb, hm, hp]
              exact ih (by omega) (by omega)


/-- One decode step accumulates `res * 128 + low7`, without wrap, while the
final value stays below `2 ^ 64`. -/
theorem or_low_eq_add (res b : Nat) (hres : res * 128 < 2 ^ 64) (hb : b < 128) :
    (res * 128) % 2 ^ 64 ||| b = res * 128 + b := by
  have hb7 : b < 2 ^ 7 := by omega
  have h1 : (res * 128) % 2 ^ 64 = res * 128 := Nat.mod_eq_of_lt hres
  have h2 : res * 128 = 2 ^ 7 * res := by ring
  rw [h1, h2, ← Nat.mul_add_lt_is_or hb7 res]

theorem markContinuation_cons (b : Nat) (c : Nat) (rest : List Nat) :
    markContinuation (b :: c :: rest) = (b ||| 128) :: markContinuation (c :: rest) := rfl

/-- Continuation-marked bytes: `b ||| 128 = b + 128` for a 7-bit group. -/
theorem or_128_eq_add (b : Nat) (hb : b < 128) : b ||| 128 = b + 128 := by
  have hb7 : b < 2 ^ 7 := by omega
  have h := (Nat.mul_add_lt_is_or hb7 1).symm
  rw [Nat.lor_comm]
  have h128 : (128 : Nat) = 2 ^ 7 * 1 := by norm_num
  rw [h128, h]
  omega

theorem groupsVal_ge (res : Nat) (bs : List Nat) : res ≤ groupsVal res bs := by
  induction bs generalizing res with
  | nil => exact Nat.le_refl _
  | cons b rest ih =>
    calc res ≤ res * 128 + b := by omega
      _ ≤ groupsVal (res * 128 + b) rest := ih _

/-- Decoding the continuation-marked encoding of big-endian groups `bs`
starting from accumulator `res` yields `groupsVal res bs`, provided the final
value fits in 64 bits. -/
theorem decode_groups (bs : List Nat) (res : Nat) (rest : List Nat)
    (hne : bs ≠ []) (hlt : ∀ b ∈ bs, b < 128) (hfit : groupsVal res bs < 2 ^ 64) :
    decodeVarIntCore (markContinuation bs ++ rest) res = .ok (groupsVal res bs, rest) := by
  induction bs generalizing res with
  | nil => exact absurd rfl hne
  | cons b bs ih =>
    have hb : b < 128 := hlt b (by simp)
    cases bs with
    | nil =>
      have hres : res * 128 < 2 ^ 64 := by
        have h1 : res * 128 + b < 2 ^ 64 := hfit
        omega
      simp only [markContinuation, List.cons_append, List.nil_append, decodeVarIntCore,
        groupsVal]
      rw [if_pos hb, Nat.mod_eq_of_lt hb, or_low_eq_add res b hres hb]
      simp
    | cons c cs =>
      have hval : groupsVal (res * 128 + b) (c :: cs) = groupsVal res (b :: c :: cs) := rfl
      have hge : res * 128 + b ≤ groupsVal res (b :: c :: cs) := by
        rw [← hval]; exact groupsVal_ge _ _
      have hres : res * 128 < 2 ^ 64 := by omega
      rw [markContinuation_cons, List.cons_append]
      show decodeVarIntCore ((b ||| 128) :: (markContinuation (c :: cs) ++ rest)) res = _
      rw [or_128_eq_add b hb]
      simp only [decodeVarIntCore]
      rw [if_neg (by omega)]
      have hmod : (b + 128) % 128 = b := by omega
      rw [hmod, or_low_eq_add res b hres hb]
      exact ih (res * 128 + b) (by simp) (fun x hx => hlt x (by simp [hx]))
        (by rw [hval]; exact hfit)

theorem varIntGroups_lt (n : Nat) : ∀ b ∈ varIntGroups n, b < 128 := by
  induction n using Nat.strong_induction_on with
  | _ n ih =>
    intro b hb
    rw [varIntGroups_eq] at hb
    by_cases h : n = 0
    · simp [h] at hb
    · rw [if_neg h] at hb
      rcases List.mem_cons.mp hb with h1 | h1
      · omega
      · exact ih (n / 128) (Nat.div_lt_self (Nat.pos_of_ne_zero h) (by omega)) b h1

theorem varIntGroups_ne_nil (n : Nat) (h : n ≠ 0) : varIntGroups n ≠ [] := by
  rw [varIntGroups_eq, if_neg h]; simp

/-- Folding the value back up over the reversed (big-endian) group list. -/
theorem groupsVal_reverse (n : Nat) (res : Nat) :
    groupsVal res (varIntGroups n).reverse = res * 128 ^ (varIntGroups n).length + n := by
  induction n using Nat.strong_induction_on generalizing res with
  | _ n ih =>
    by_cases h : n = 0
    · subst h; rw [varIntGroups_eq]; simp [groupsVal]
    · rw [varIntGroups_eq, if_neg h]
      simp only [List.reverse_cons, List.length_cons]
      have hrec : ∀ r, groupsVal r ((varIntGroups (n / 128)).reverse ++ [n % 128]) =
          groupsVal (groupsVal r (varIntGroups (n / 128)).reverse) [n % 128] := by
        intro r
        generalize (varIntGroups (n / 128)).reverse = l
        induction l generalizing r with
        | nil => rfl
        | cons x xs ihl => simp only [List.cons_append, groupsVal]; exact ihl _
      rw [hrec, ih (n / 128) (Nat.div_lt_self (Nat.pos_of_ne_zero h) (by omega)) res]
      show (res * 128 ^ (varIntGroups (n / 128)).length + n / 128) * 128 + n % 128 =
        res * 128 ^ ((varIntGroups (n / 128)).length + 1) + n
      rw [Nat.pow_succ]
      have hdm := Nat.div_add_mod n 128
      linarith [hdm]

/-- Varint round-trip on a stream: shared general lemma. -/
theorem decodeVarInt_encodeVarInt (v : Nat) (hv : v < 2 ^ 64) (rest : List Nat) :
    decodeVarInt (encodeVarInt v ++ rest) = .ok (v, rest) := by
  by_cases h : v = 0
  · subst h; rfl
  · rw [encodeVarInt, if_neg h, decodeVarInt]
    have hval : groupsVal 0 (varIntGroups v).reverse = v := by
      rw [groupsVal_reverse]; simp
    rw [decode_groups (varIntGroups v).reverse 0 rest
      (by simpa using varIntGroups_ne_nil v h)
      (by intro b hb; exact varIntGroups_lt v b (List.mem_reverse.mp hb))
      (by rw [hval]; exact hv), hval]

/-- C7: Varint round-trip: for every `v in [0, 2^64)`,
`decodeVarInt (encodeVarInt v) = v`, where `encodeVarInt` produces big-endian
base-128 bytes with the continuation bit set on all bytes but the last and
encodes zero as the single byte `0x00`. -/
theorem varint_round_trip (v : Nat) (hv : v < 2 ^ 64) :
    decodeVarInt (encodeVarInt v) = .ok (v, []) := by
  have := decodeVarInt_encodeVarInt v hv []
  simpa using this

/-- Witness for C7 at `v = 300`. -/
theorem varint_round_trip_witness :
    300 < 2 ^ 64 ∧ decodeVarInt (encodeVarInt 300) = .ok (300, []) :=
  ⟨by norm_num, varint_round_trip 300 (by norm_num)⟩


/-! ## C10: decoder timestamp monotonicity -/

/-- C10: within a reconcile pass, for every possible input byte string, a
successful `decodeTimestampIn` returns a timestamp at least the current
`lastTimestampIn` (with overflow saturating to `U64_MAX`) and stores it back
into `lastTimestampIn`, so the decoded bound timestamps of a frame never
decrease. -/
theorem decode_timestamp_monotone (q : List Nat) (lastIn t l' : Nat) (rest : List Nat)
    (hlast : lastIn < 2 ^ 64)
    (h : decodeTimestampIn q lastIn = .ok (t, l', rest)) :
    lastIn ≤ t ∧ l' = t ∧ t ≤ MAXU64 := by
  rw [decodeTimestampIn] at h
  split at h
  · cases h
  · simp only [Except.ok.injEq, Prod.mk.injEq] at h
    obtain ⟨h1, h2, h3⟩ := h
    subst h1
    subst h2
    refine ⟨?_, rfl, ?_⟩
    · rw [MAXU64]
      split_ifs <;> omega
    · rw [MAXU64]
      split_ifs <;> omega

/-- Witness for C10: decoding the sentinel byte `0x00` from state `5`. -/
theorem decode_timestamp_monotone_witness :
    (5 : Nat) < 2 ^ 64 ∧ decodeTimestampIn [0] 5 = .ok (MAXU64, MAXU64, []) ∧
      (5 ≤ MAXU64 ∧ MAXU64 = MAXU64 ∧ MAXU64 ≤ MAXU64) :=
  ⟨by norm_num, by decide,
    decode_timestamp_monotone [0] 5 MAXU64 MAXU64 [] (by norm_num) (by decide)⟩

/-! ## C1: delta-timestamp round trip -/

/-- One encode/decode step with synchronised state `s`: lossless exactly when
the outgoing timestamp does not decrease below `s`. -/
theorem decodeTimestampIn_encodeTimestampOut (t s : Nat) (rest : List Nat)
    (hs : s < 2 ^ 64) (ht : t < 2 ^ 64) (hst : s ≤ t) :
    decodeTimestampIn ((encodeTimestampOut t s).1 ++ rest) s = .ok (t, t, rest) ∧
      (encodeTimestampOut t s).2 = t := by
  by_cases hmax : t = MAXU64
  · subst hmax
    have hdec := decodeVarInt_encodeVarInt 0 (by norm_num) rest
    constructor
    · rw [encodeTimestampOut, if_pos rfl]
      simp only [decodeTimestampIn, hdec, if_true]
      have hsat : (if (MAXU64 + s) % 2 ^ 64 < s then MAXU64 else (MAXU64 + s) % 2 ^ 64)
          = MAXU64 := by
        rw [MAXU64]
        split_ifs <;> omega
      rw [hsat]
    · rw [encodeTimestampOut, if_pos rfl]
  · have hne : t - s + 1 ≠ 0 := by omega
    have hv : t - s + 1 < 2 ^ 64 := by
      rw [MAXU64] at hmax
      omega
    have hdelta : (t + 2 ^ 64 - s) % 2 ^ 64 = t - s := by omega
    have hv1 : (t - s + 1) % 2 ^ 64 = t - s + 1 := by omega
    have hdec := decodeVarInt_encodeVarInt (t - s + 1) hv rest
    constructor
    · rw [encodeTimestampOut, if_neg hmax]
      simp only [hdelta, hv1]
      simp only [decodeTimestampIn, hdec]
      rw [if_neg hne]
      have h2 : (t - s + 1 - 1 + s) % 2 ^ 64 = t := by omega
      rw [h2, if_neg (by omega : ¬ t < s)]
    · rw [encodeTimestampOut, if_neg hmax]

/-- C1 counterexample: the claimed round trip fails on the decreasing
sequence `[5, 4]` — the encoder's wrapped delta for a decrease of exactly 1
collides with the `U64_MAX` sentinel, and the decoder returns `U64_MAX`. -/
theorem delta_timestamp_round_trip_cex :
    decodeTimestampSeq 0 2 (encodeTimestampSeq 0 [5, 4]) = .ok ([5, MAXU64], []) ∧
      ([5, MAXU64] : List Nat) ≠ [5, 4] := by
  constructor
  · decide
  · decide

/-- C1 (amended): for sequences of `uint64` timestamps that never decrease
(each element at least the previous one; after a `U64_MAX` sentinel only
`U64_MAX`), encode with `encodeTimestampOut` and decode with
`decodeTimestampIn`, with both sides' state synchronised and started at the
same value, reproduce the sequence exactly, including the `U64_MAX`
sentinel.  Decreasing timestamps are not reproduced: the decoder saturates
them to `U64_MAX` (see the counterexample). -/
theorem delta_timestamp_round_trip_mono (ts : List Nat) :
    ∀ (s : Nat) (rest : List Nat), s < 2 ^ 64 → goodTimestampSeq s ts →
    decodeTimestampSeq s ts.length (encodeTimestampSeq s ts ++ rest) = .ok (ts, rest) := by
  induction ts with
  | nil =>
    intro s rest hs _
    simp [encodeTimestampSeq, decodeTimestampSeq]
  | cons t ts ih =>
    intro s rest hs hgood
    obtain ⟨h1, h2, h3⟩ := hgood
    obtain ⟨step1, step2⟩ := decodeTimestampIn_encodeTimestampOut t s
      (encodeTimestampSeq (encodeTimestampOut t s).2 ts ++ rest) hs h2 h1
    rw [step2] at step1
    simp only [encodeTimestampSeq, List.length_cons, List.append_assoc]
    rw [step2]
    simp only [decodeTimestampSeq, step1]
    rw [ih t rest h2 h3]

/-- Witness for C1 (amended) on the sequence `[3, 5, U64_MAX]`. -/
theorem delta_timestamp_round_trip_mono_witness :
    ((0 : Nat) < 2 ^ 64 ∧ goodTimestampSeq 0 [3, 5, MAXU64]) ∧
      decodeTimestampSeq 0 3 (encodeTimestampSeq 0 [3, 5, MAXU64] ++ []) =
        .ok ([3, 5, MAXU64], []) :=
  ⟨⟨by norm_num, by norm_num [goodTimestampSeq, MAXU64]⟩,
    delta_timestamp_round_trip_mono [3, 5, MAXU64] 0 [] (by norm_num)
      (by norm_num [goodTimestampSeq, MAXU64])⟩

/-! ## C6: bound encoding -/

/-- C6 counterexample: for a bound whose id is longer than `idSize` (such
bounds arise from `getMinimalBound` on long ids and from decoded frames),
the length field written by `encodeBound` is the full id length, not the
number of id bytes that follow: with `idSize = 8` and a 9-byte id the frame
says 9 but carries 8 bytes. -/
theorem bound_encoding_cex :
    (encodeBound 8 ⟨0, List.replicate 9 1⟩ 0).1 ≠
      (encodeTimestampOut 0 0).1 ++
        encodeVarInt (getIdSub ⟨0, List.replicate 9 1⟩ 8).length ++
        getIdSub ⟨0, List.replicate 9 1⟩ 8 := by
  decide

/-- C6 (amended): for every bound whose id length is at most `idSize`,
`encodeBound` emits the delta-encoded timestamp, then `varint(L)`, then
exactly `L` id bytes, where the emitted prefix is the bound's id truncated
to at most `idSize` bytes and `L` equals the number of emitted bytes.  (For
a bound with an id longer than `idSize` the length field exceeds the number
of emitted bytes, see the counterexample.) -/
theorem bound_encoding (idSize : Nat) (bound : XorElem) (lastTimestampOut : Nat)
    (h : bound.id.length ≤ idSize) :
    (encodeBound idSize bound lastTimestampOut).1 =
      (encodeTimestampOut bound.timestamp lastTimestampOut).1 ++
        encodeVarInt (getIdSub bound idSize).length ++ getIdSub bound idSize ∧
      (getIdSub bound idSize).length ≤ idSize ∧
      getIdSub bound idSize = bound.id.take idSize ∧
      (encodeBound idSize bound lastTimestampOut).2 =
        (encodeTimestampOut bound.timestamp lastTimestampOut).2 := by
  have htake : bound.id.take idSize = bound.id := List.take_of_length_le h
  refine ⟨?_, ?_, rfl, rfl⟩
  · simp only [encodeBound, getIdSub, htake]
  · simp only [getIdSub, htake]
    exact h

/-- Witness for C6 (amended): `idSize = 8`, a 3-byte bound id. -/
theorem bound_encoding_witness :
    (([1, 2, 3] : List Nat).length ≤ 8) ∧
      ((encodeBound 8 ⟨7, [1, 2, 3]⟩ 0).1 =
        (encodeTimestampOut 7 0).1 ++
          encodeVarInt (getIdSub ⟨7, [1, 2, 3]⟩ 8).length ++ getIdSub ⟨7, [1, 2, 3]⟩ 8 ∧
      (getIdSub ⟨7, [1, 2, 3]⟩ 8).length ≤ 8 ∧
      getIdSub ⟨7, [1, 2, 3]⟩ 8 = ([1, 2, 3] : List Nat).take 8 ∧
      (encodeBound 8 ⟨7, [1, 2, 3]⟩ 0).2 = (encodeTimestampOut 7 0).2) :=
  ⟨by decide, bound_encoding 8 ⟨7, [1, 2, 3]⟩ 0 (by decide)⟩

/-! ## C2: empty vs empty -/

/-- C2 counterexample: with both peers sealed empty (session `idSize = 16`),
`initiate` does produce the one-record zero-id IdList frame `[0,0,2,0]`, but
the responder's `reconcile` on that frame is not empty: the responder
unconditionally enqueues an `IdListResponse` for every received IdList, so
its reply is the five-byte frame `[0,0,3,0,0]`. -/
theorem empty_vs_empty_cex :
    initiate ⟨16, [], true, false, 0, []⟩ 0 =
      .ok ([0, 0, 2, 0], ⟨16, [], true, true, 0, []⟩) ∧
    reconcile ⟨16, [], true, false, 0, []⟩ [0, 0, 2, 0] =
      .ok ([0, 0, 3, 0, 0], ⟨16, [], true, false, 0, []⟩) ∧
    ([0, 0, 3, 0, 0] : List Nat) ≠ [] := by
  refine ⟨by decide, by decide, by decide⟩

/-- C2 (amended): if both peers are sealed with no items, `initiate`
produces a one-record frame `[0,0,2,0]` containing an IdList with zero ids
spanning `((0, empty), (U64_MAX, empty))`; the responder's `reconcile` on
that frame returns the one-record `IdListResponse` reply `[0,0,3,0,0]`
(empty have-ids, empty bitfield) over the same span — not an empty frame —
and the initiator's next `reconcile` on that reply returns empty `have`,
empty `need`, and an empty outgoing frame. -/
theorem empty_vs_empty :
    splitRange 16 [] ⟨0, []⟩ ⟨MAXU64, []⟩ =
      [⟨⟨0, []⟩, ⟨MAXU64, []⟩, encodeVarInt 2 ++ encodeVarInt 0 ++ []⟩] ∧
    initiate ⟨16, [], true, false, 0, []⟩ 0 =
      .ok ([0, 0, 2, 0], ⟨16, [], true, true, 0, []⟩) ∧
    reconcile ⟨16, [], true, false, 0, []⟩ [0, 0, 2, 0] =
      .ok ([0, 0, 3, 0, 0], ⟨16, [], true, false, 0, []⟩) ∧
    ([0, 0, 3, 0, 0] : List Nat) =
      [0, 0] ++ encodeVarInt 3 ++ encodeVarInt 0 ++ encodeVarInt 0 ++ [] ∧
    reconcileWithHaveNeed ⟨16, [], true, true, 0, []⟩ [0, 0, 3, 0, 0] =
      .ok ([], [], [], ⟨16, [], true, true, 0, []⟩) := by
  refine ⟨by decide, by decide, by decide, by decide, by decide⟩

/-! ## C9: role and mode errors -/

theorem processMode_mode_gt {idSize : Nat} {isInit : Bool} {mode : Nat}
    {prevBound currBound : XorElem} {range : List XorElem} {q : List Nat} {st : RecState}
    (h : 3 < mode) :
    processMode idSize isInit mode prevBound currBound range q st = .error "unexpected mode" := by
  rw [processMode, if_neg (by omega), if_neg (by omega), if_neg (by omega), if_neg (by omega)]

theorem processMode_mode3_responder {idSize : Nat}
    {prevBound currBound : XorElem} {range : List XorElem} {q : List Nat} {st : RecState} :
    processMode idSize false 3 prevBound currBound range q st =
      .error "unexpected IdListResponse" := by
  rw [processMode, if_neg (by omega), if_neg (by omega), if_neg (by omega), if_pos rfl]
  rfl

/-- C9: role and mode errors.  The responder-style `reconcile` fails (with no
frame) when called by an initiator; the have/need-returning `reconcile`
fails when called by a non-initiator; the record loop fails with
`"unexpected mode"` whenever a record's decoded mode is greater than 3, and
with `"unexpected IdListResponse"` whenever a non-initiator meets a mode-3
record. -/
theorem role_and_mode_errors :
    (∀ (st : Reconciler) (q : List Nat), st.isInitiator = true →
      reconcile st q = .error "initiator not asking for have/need IDs") ∧
    (∀ (st : Reconciler) (q : List Nat), st.isInitiator = false →
      reconcileWithHaveNeed st q = .error "non-initiator asking for have/need IDs") ∧
    (∀ (idSize : Nat) (isInit : Bool) (query q1 q2 : List Nat) (prevBound currBound : XorElem)
      (remaining : List XorElem) (lastIn last' : Nat) (st : RecState) (mode : Nat),
      decodeBound query lastIn = .ok (currBound, last', q1) →
      decodeVarInt q1 = .ok (mode, q2) → 3 < mode →
      reconcileLoop idSize isInit query prevBound remaining lastIn st =
        .error "unexpected mode") ∧
    (∀ (idSize : Nat) (query q1 q2 : List Nat) (prevBound currBound : XorElem)
      (remaining : List XorElem) (lastIn last' : Nat) (st : RecState),
      decodeBound query lastIn = .ok (currBound, last', q1) →
      decodeVarInt q1 = .ok (3, q2) →
      reconcileLoop idSize false query prevBound remaining lastIn st =
        .error "unexpected IdListResponse") := by
  refine ⟨?_, ?_, ?_, ?_⟩
  · intro st q h
    rw [reconcile, if_pos h]
  · intro st q h
    rw [reconcileWithHaveNeed, if_pos (by rw [h]; rfl)]
  · intro idSize isInit query q1 q2 prevBound currBound remaining lastIn last' st mode
      hb hm hmode
    cases query with
    | nil => simp [decodeBound, decodeTimestampIn, decodeVarInt, decodeVarIntCore] at hb
    | cons b bs =>
      simp only [reconcileLoop, List.length_cons, reconcileLoopFuel, hb, hm]
      rw [processMode_mode_gt hmode]
  · intro idSize query q1 q2 prevBound currBound remaining lastIn last' st hb hm
    cases query with
    | nil => simp [decodeBound, decodeTimestampIn, decodeVarInt, decodeVarIntCore] at hb
    | cons b bs =>
      simp only [reconcileLoop, List.length_cons, reconcileLoopFuel, hb, hm]
      rw [processMode_mode3_responder]

/-- Witness for C9: wrong-role calls on concrete states, and the frames
`[0,0,4]` (mode 4) and `[0,0,3]` (mode 3 at a responder). -/
theorem role_and_mode_errors_witness :
    (reconcile ⟨8, [], true, true, 0, []⟩ [] =
      .error "initiator not asking for have/need IDs") ∧
    (reconcileWithHaveNeed ⟨8, [], true, false, 0, []⟩ [] =
      .error "non-initiator asking for have/need IDs") ∧
    (reconcileLoop 8 true [0, 0, 4] ⟨0, []⟩ [] 0 ⟨[], [], []⟩ =
      .error "unexpected mode") ∧
    (reconcileLoop 8 false [0, 0, 3] ⟨0, []⟩ [] 0 ⟨[], [], []⟩ =
      .error "unexpected IdListResponse") :=
  ⟨role_and_mode_errors.1 ⟨8, [], true, true, 0, []⟩ [] rfl,
   role_and_mode_errors.2.1 ⟨8, [], true, false, 0, []⟩ [] rfl,
   role_and_mode_errors.2.2.1 8 true [0, 0, 4] [4] [] ⟨MAXU64, []⟩ ⟨MAXU64, []⟩ [] 0 MAXU64
     ⟨[], [], []⟩ 4 (by decide) (by decide) (by decide),
   role_and_mode_errors.2.2.2 8 [0, 0, 3] [3] [] ⟨MAXU64, []⟩ ⟨MAXU64, []⟩ [] 0 MAXU64
     ⟨[], [], []⟩ (by decide) (by decide)⟩

/-! ## C3: frame cap -/

/-- Invariant of the `buildOutput` loop: the accumulated frame never exceeds
the cap, and the frame is the whole-record encoding of the prefix of the
queue that got emitted, with the rest left queued. -/
theorem buildOutputAux_spec (L idSize : Nat) (hL : L ≠ 0)
    (pending : List BoundOutput) :
    ∀ (cb : XorElem) (lastOut : Nat) (output : List Nat), output.length ≤ L →
      (buildOutputAux L idSize cb lastOut output pending).1.length ≤ L ∧
      ∃ k, (buildOutputAux L idSize cb lastOut output pending).1 =
          output ++ encodeRecords idSize cb lastOut (pending.take k) ∧
        (buildOutputAux L idSize cb lastOut output pending).2 = pending.drop k := by
  induction pending with
  | nil =>
    intro cb lastOut output hout
    exact ⟨hout, 0, by simp [buildOutputAux, encodeRecords], rfl⟩
  | cons p rest ih =>
    intro cb lastOut output hout
    simp only [buildOutputAux]
    by_cases h1 : elemLt p.start cb = true
    · rw [if_pos h1]
      exact ⟨hout, 0, by simp [encodeRecords], rfl⟩
    · rw [if_neg h1]
      by_cases h2 : L < output.length +
          (encodeRecordBytes idSize cb lastOut p).1.length
      · rw [if_pos ⟨hL, h2⟩]
        exact ⟨hout, 0, by simp [encodeRecords], rfl⟩
      · rw [if_neg (by intro hc; exact h2 hc.2)]
        have hout' : (output ++ (encodeRecordBytes idSize cb lastOut p).1).length ≤ L := by
          rw [List.length_append]
          omega
        obtain ⟨hlen, k, heq, hdrop⟩ := ih p.«end»
          (encodeRecordBytes idSize cb lastOut p).2
          (output ++ (encodeRecordBytes idSize cb lastOut p).1) hout'
        refine ⟨hlen, k + 1, ?_, ?_⟩
        · rw [heq, List.take_succ_cons]
          simp only [encodeRecords]
          rw [List.append_assoc]
        · rw [hdrop, List.drop_succ_cons]

/-- C3: whenever `frameSizeLimit = L ≥ 1024` is configured, every frame
returned by `buildOutput` has byte length at most `L`; the frame consists of
whole records — each record together with its preceding `Skip` filler is
emitted atomically, never split across frames — and the un-emitted pending
outputs remain queued, in order, for the next call. -/
theorem frame_cap (idSize L : Nat) (pending : List BoundOutput) (hL : 1024 ≤ L) :
    (buildOutput L idSize pending).1.length ≤ L ∧
    ∃ k, (buildOutput L idSize pending).1 =
        encodeRecords idSize ⟨0, []⟩ 0 (pending.take k) ∧
      (buildOutput L idSize pending).2 = pending.drop k := by
  have h := buildOutputAux_spec L idSize (by omega) pending ⟨0, []⟩ 0 [] (by simp)
  rw [buildOutput]
  obtain ⟨h1, k, h2, h3⟩ := h
  exact ⟨h1, k, by rw [h2]; simp, h3⟩

/-- Witness for C3 at `L = 1024`, one pending record. -/
theorem frame_cap_witness :
    1024 ≤ 1024 ∧
    ((buildOutput 1024 16 [⟨⟨0, []⟩, ⟨MAXU64, []⟩, [2, 0]⟩]).1.length ≤ 1024 ∧
    ∃ k, (buildOutput 1024 16 [⟨⟨0, []⟩, ⟨MAXU64, []⟩, [2, 0]⟩]).1 =
        encodeRecords 16 ⟨0, []⟩ 0 ([⟨⟨0, []⟩, ⟨MAXU64, []⟩, [2, 0]⟩].take k) ∧
      (buildOutput 1024 16 [⟨⟨0, []⟩, ⟨MAXU64, []⟩, [2, 0]⟩]).2 =
        [(⟨⟨0, []⟩, ⟨MAXU64, []⟩, [2, 0]⟩ : BoundOutput)].drop k) :=
  ⟨by norm_num, frame_cap 16 1024 [⟨⟨0, []⟩, ⟨MAXU64, []⟩, [2, 0]⟩] (by norm_num)⟩

/-! ## C8: duplicate items -/

/-- C8 counterexample: an initiator with no items receiving an IdList that
contains the same id twice records it once in `needIds`, not twice —
`unordered_map::emplace` ignores the duplicate — so the receiving peer does
not treat the two occurrences as two entries. -/
theorem duplicate_adds_cex :
    reconcileWithHaveNeed ⟨8, [], true, true, 0, []⟩
        ([0, 0, 2, 2] ++ [1, 2, 3, 4, 5, 6, 7, 8] ++ [1, 2, 3, 4, 5, 6, 7, 8]) =
      .ok ([], [[1, 2, 3, 4, 5, 6, 7, 8]], [], ⟨8, [], true, true, 0, []⟩) ∧
    ([[1, 2, 3, 4, 5, 6, 7, 8]] : List (List Nat)).length ≠ 2 := by
  exact ⟨by decide, by decide⟩

/-- Counting occurrences is preserved (at least) under mapping. -/
theorem count_map_le (l : List XorElem) (f : XorElem → List Nat) (e : XorElem) :
    l.count e ≤ (l.map f).count (f e) := by
  induction l with
  | nil => simp
  | cons a as ih =>
    simp only [List.map_cons, List.count_cons]
    by_cases h : a = e
    · subst h
      simp only [beq_self_eq_true, if_pos rfl]
      exact Nat.add_le_add_right ih 1
    · have hbeq : (a == e) = false := by simp [h]
      rw [hbeq]
      simp only [Bool.false_eq_true, if_false]
      split_ifs <;> omega

/-- C8 (amended): adding the same `(timestamp, id)` twice yields two stored
items, and both occurrences appear in the IdList body emitted for a small
range containing them; but on the receiving side duplicate ids of an IdList
collapse into a single `theirElems` entry keeping the first offset, so the
have/need results and the `IdListResponse` treat them as one entry (see the
counterexample). -/
theorem duplicate_adds :
    (∀ (st : Reconciler) (t : Nat) (id : List Nat), st.sealed = false → id.length ≤ 32 →
      addItem st t id = .ok { st with items := st.items ++ ([⟨t, id⟩] : List XorElem) } ∧
      addItem { st with items := st.items ++ ([⟨t, id⟩] : List XorElem) } t id =
        .ok { st with items := st.items ++ ([⟨t, id⟩, ⟨t, id⟩] : List XorElem) } ∧
      (st.items ++ ([⟨t, id⟩, ⟨t, id⟩] : List XorElem)).count (⟨t, id⟩ : XorElem) =
        st.items.count (⟨t, id⟩ : XorElem) + 2) ∧
    (∀ (idSize : Nat) (items : List XorElem) (lb ub e : XorElem) (hn : items.length < 32),
      2 ≤ items.count e →
      2 ≤ (items.map fun x => getIdSub x idSize).count (getIdSub e idSize) ∧
      splitRange idSize items lb ub =
        [⟨lb, ub, encodeVarInt 2 ++ encodeVarInt items.length ++
          (items.map fun x => getIdSub x idSize).flatten⟩]) ∧
    (∀ x : List Nat, buildTheirElems [x, x] = [(x, 0, false)]) := by
  refine ⟨?_, ?_, ?_⟩
  · intro st t id h1 h2
    have hnotsealed : ¬ st.sealed = true := by rw [h1]; simp
    have hlen : ¬ 32 < id.length := by omega
    refine ⟨?_, ?_, ?_⟩
    · rw [addItem, if_neg hnotsealed, if_neg hlen]
    · rw [addItem]
      simp only [if_neg hnotsealed, if_neg hlen, List.append_assoc]
      rfl
    · simp [List.count_append, List.count_cons]
  · intro idSize items lb ub e hn hcount
    constructor
    · exact le_trans hcount (count_map_le items (fun x => getIdSub x idSize) e)
    · simp only [splitRange]
      rw [if_pos (by omega)]
  · intro x
    simp [buildTheirElems, List.enum, List.enumFrom, emplaceElem, List.find?]

/-- Witness for C8 (amended) on a fresh `idSize = 8` Reconciler and the item
`(1, [1,1,1,1,1,1,1,1])`. -/
theorem duplicate_adds_witness :
    ((⟨8, [], false, false, 0, []⟩ : Reconciler).sealed = false ∧
      ([1, 1, 1, 1, 1, 1, 1, 1] : List Nat).length ≤ 32 ∧
      ([⟨1, [1, 1, 1, 1, 1, 1, 1, 1]⟩,
        ⟨1, [1, 1, 1, 1, 1, 1, 1, 1]⟩] : List XorElem).length < 32 ∧
      2 ≤ ([⟨1, [1, 1, 1, 1, 1, 1, 1, 1]⟩, ⟨1, [1, 1, 1, 1, 1, 1, 1, 1]⟩] :
        List XorElem).count ⟨1, [1, 1, 1, 1, 1, 1, 1, 1]⟩) ∧
    addItem ⟨8, [], false, false, 0, []⟩ 1 [1, 1, 1, 1, 1, 1, 1, 1] =
      .ok ⟨8, [⟨1, [1, 1, 1, 1, 1, 1, 1, 1]⟩], false, false, 0, []⟩ ∧
    2 ≤ (([⟨1, [1, 1, 1, 1, 1, 1, 1, 1]⟩, ⟨1, [1, 1, 1, 1, 1, 1, 1, 1]⟩] :
        List XorElem).map fun x => getIdSub x 8).count
      (getIdSub ⟨1, [1, 1, 1, 1, 1, 1, 1, 1]⟩ 8) ∧
    buildTheirElems [[9], [9]] = [([9], 0, false)] := by
  refine ⟨⟨rfl, by decide, by decide, by decide⟩, ?_, ?_, ?_⟩
  · have h := (duplicate_adds.1 ⟨8, [], false, false, 0, []⟩ 1 [1, 1, 1, 1, 1, 1, 1, 1]
      rfl (by decide)).1
    simpa using h
  · exact ((duplicate_adds.2.1 8
      [⟨1, [1, 1, 1, 1, 1, 1, 1, 1]⟩, ⟨1, [1, 1, 1, 1, 1, 1, 1, 1]⟩]
      ⟨0, []⟩ ⟨MAXU64, []⟩ ⟨1, [1, 1, 1, 1, 1, 1, 1, 1]⟩ (by decide) (by decide))).1
  · exact duplicate_adds.2.2 [9]

/-! ## C5: bound minimality -/

theorem getD_drop_one (p : List Nat) (i : Nat) : (p.drop 1).getD i 0 = p.getD (i + 1) 0 := by
  cases p <;> simp [List.getD_cons_succ]

theorem countShared_le (fuel : Nat) : ∀ (p c : List Nat), countShared p c fuel ≤ fuel := by
  induction fuel with
  | zero => intro p c; simp [countShared]
  | succ fuel ih =>
    intro p c
    rw [countShared]
    split
    · have := ih (p.drop 1) (c.drop 1)
      omega
    · omega

theorem countShared_bytes (fuel : Nat) : ∀ (p c : List Nat) (i : Nat),
    i < countShared p c fuel → p.getD i 0 = c.getD i 0 := by
  induction fuel with
  | zero =>
    intro p c i h
    rw [countShared] at h
    omega
  | succ fuel ih =>
    intro p c i h
    rw [countShared] at h
    split at h
    · rename_i heq
      cases i with
      | zero => exact heq.symm
      | succ i =>
        rw [← getD_drop_one p, ← getD_drop_one c]
        exact ih _ _ i (by omega)
    · omega

theorem countShared_ne (fuel : Nat) : ∀ (p c : List Nat), countShared p c fuel < fuel →
    p.getD (countShared p c fuel) 0 ≠ c.getD (countShared p c fuel) 0 := by
  induction fuel with
  | zero =>
    intro p c h
    omega
  | succ fuel ih =>
    intro p c h
    by_cases heq : c.getD 0 0 = p.getD 0 0
    · simp only [countShared, if_pos heq] at h ⊢
      rw [← getD_drop_one p, ← getD_drop_one c]
      exact ih _ _ (by omega)
    · simp only [countShared, if_neg heq]
      exact fun hc => heq hc.symm

theorem lexLt_append_left (a : List Nat) :
    ∀ (u v : List Nat), lexLt (a ++ u) (a ++ v) = lexLt u v := by
  induction a with
  | nil => intro u v; rfl
  | cons x xs ih =>
    intro u v
    show (if x < x then true else if x = x then lexLt (xs ++ u) (xs ++ v) else false) = _
    rw [if_neg (Nat.lt_irrefl x), if_pos rfl, ih]

theorem lexLt_self_append (p : List Nat) :
    ∀ (r : List Nat), r ≠ [] → lexLt p (p ++ r) = true := by
  induction p with
  | nil =>
    intro r hr
    cases r with
    | nil => exact absurd rfl hr
    | cons a as => rfl
  | cons x xs ih =>
    intro r hr
    show (if x < x then true else if x = x then lexLt xs (xs ++ r) else false) = true
    rw [if_neg (Nat.lt_irrefl x), if_pos rfl, ih r hr]

theorem lexLt_take (l : List Nat) (m : Nat) (h : m < l.length) :
    lexLt (l.take m) l = true := by
  have hlen : (l.drop m).length = l.length - m := List.length_drop m l
  have hd : l.drop m ≠ [] := by
    intro hc
    rw [hc] at hlen
    simp at hlen
    omega
  calc lexLt (l.take m) l = lexLt (l.take m) (l.take m ++ l.drop m) := by
        rw [List.take_append_drop]
    _ = true := lexLt_self_append _ _ hd

theorem lexLt_head_lt {x y : Nat} {u v : List Nat}
    (h : lexLt (x :: u) (y :: v) = true) (hne : x ≠ y) : x < y := by
  by_cases hlt : x < y
  · exact hlt
  · exfalso
    revert h
    show (if x < y then true else if x = y then lexLt u v else false) = true → False
    rw [if_neg hlt, if_neg hne]
    simp

theorem lexLt_head_cons (x y : Nat) (u v : List Nat) (h : x < y) :
    lexLt (x :: u) (y :: v) = true := by
  show (if x < y then true else if x = y then lexLt u v else false) = true
  rw [if_pos h]

/-- Core of C5 for the equal-timestamp branch: with both ids no longer than
`idSize`, the `k + 1`-byte prefix of `curr`'s id separates the ids
strictly. -/
theorem minimal_bound_lex (idSize : Nat) (ps cs : List Nat)
    (hc : cs.length ≤ idSize) (hlt : lexLt ps cs = true) :
    lexLt ps (cs.take (countShared ps cs idSize + 1)) = true ∧
    (lexLt (cs.take (countShared ps cs idSize + 1)) cs = true ∨
      cs.take (countShared ps cs idSize + 1) = cs) ∧
    (cs.take (countShared ps cs idSize + 1)).length ≤ idSize := by
  set k := countShared ps cs idSize with hk
  by_cases hkc : cs.length ≤ k
  · have htk : cs.take (k + 1) = cs := List.take_of_length_le (by omega)
    rw [htk]
    exact ⟨hlt, Or.inr rfl, hc⟩
  · push_neg at hkc
    have hkσ : k < idSize := by omega
    have hlenB : (cs.take (k + 1)).length = k + 1 := by
      rw [List.length_take]
      omega
    by_cases hpk : ps.length ≤ k
    · -- ps is a strict prefix of the bound id
      have hps_eq : ps = cs.take ps.length := by
        apply List.ext_get
        · rw [List.length_take]
          omega
        · intro i h1 h2
          have hb := countShared_bytes idSize ps cs i (by omega)
          rw [List.getD_eq_getElem ps 0 h1] at hb
          have hElemC : i < cs.length := by omega
          rw [List.getD_eq_getElem cs 0 hElemC] at hb
          simp only [List.get_eq_getElem, List.getElem_take]
          exact hb
      have hsub : cs.take ps.length = (cs.take (k + 1)).take ps.length := by
        rw [List.take_take]
        congr 1
        omega
      constructor
      · rw [hps_eq, hsub]
        exact lexLt_take _ _ (by omega)
      · constructor
        · rcases Nat.lt_or_ge (k + 1) cs.length with hlt' | hge
          · exact Or.inl (lexLt_take cs (k + 1) hlt')
          · exact Or.inr (List.take_of_length_le hge)
        · omega
    · -- the ids differ at byte k
      push_neg at hpk
      have hbytes : ∀ i, i < k → ps.getD i 0 = cs.getD i 0 :=
        fun i hi => countShared_bytes idSize ps cs i (by omega)
      have hdiffD : ps.getD k 0 ≠ cs.getD k 0 := countShared_ne idSize ps cs hkσ
      have hkP : k < ps.length := hpk
      have hkC : k < cs.length := hkc
      have hdiff : ps[k] ≠ cs[k] := by
        rw [← List.getD_eq_getElem ps 0 hkP, ← List.getD_eq_getElem cs 0 hkC]
        exact hdiffD
      have htk : ps.take k = cs.take k := by
        apply List.ext_get
        · rw [List.length_take, List.length_take]
          omega
        · intro i h1 h2
          have hi : i < k := by
            rw [List.length_take] at h1
            omega
          have hb := hbytes i hi
          rw [List.getD_eq_getElem ps 0 (by omega)] at hb
          rw [List.getD_eq_getElem cs 0 (by omega)] at hb
          simp only [List.get_eq_getElem, List.getElem_take]
          exact hb
      have hlt2 : lexLt (ps.drop k) (cs.drop k) = true := by
        have h1 := hlt
        rw [← List.take_append_drop k ps, ← List.take_append_drop k cs, htk,
          lexLt_append_left] at h1
        exact h1
      rw [List.drop_eq_getElem_cons hkP, List.drop_eq_getElem_cons hkC] at hlt2
      have hhead : ps[k] < cs[k] := lexLt_head_lt hlt2 hdiff
      have hBtake : cs.take (k + 1) = cs.take k ++ [cs[k]] := by
        rw [List.take_succ]
        simp [List.getElem?_eq_getElem hkC]
      refine ⟨?_, ?_, by omega⟩
      · conv_lhs => rw [← List.take_append_drop k ps]
        rw [hBtake, htk, lexLt_append_left, List.drop_eq_getElem_cons hkP]
        exact lexLt_head_cons _ _ _ _ hhead
      · rcases Nat.lt_or_ge (k + 1) cs.length with hlt' | hge
        · exact Or.inl (lexLt_take cs (k + 1) hlt')
        · exact Or.inr (List.take_of_length_le hge)

/-- C5 counterexample: with `idSize = 8` and adjacent items whose 10-byte
ids share their first 9 bytes, `getMinimalBound` returns a 9-byte bound `B`
with `B < prev` (not `prev < B`) and `B`'s id longer than `idSize`. -/
theorem bound_minimality_cex :
    elemLt ⟨0, List.replicate 9 0 ++ [1]⟩ ⟨0, List.replicate 9 0 ++ [2]⟩ = true ∧
    ¬ (elemLt ⟨0, List.replicate 9 0 ++ [1]⟩
        (getMinimalBound 8 ⟨0, List.replicate 9 0 ++ [1]⟩
          ⟨0, List.replicate 9 0 ++ [2]⟩) = true) ∧
    ¬ ((getMinimalBound 8 ⟨0, List.replicate 9 0 ++ [1]⟩
        ⟨0, List.replicate 9 0 ++ [2]⟩).id.length ≤ 8) := by
  refine ⟨by decide, by decide, by decide⟩

/-- C5 (amended): for adjacent items `prev < curr` such that `curr`'s id is
no longer than `idSize` (as for every id of exactly `idSize` bytes), the
bound `B = getMinimalBound prev curr` satisfies `prev < B ≤ curr` in the
`(timestamp, id)` order and `B`'s id length is at most `idSize`; when the
timestamps differ `B = (curr.timestamp, empty)`, otherwise `B`'s id is
`curr`'s id truncated to `k + 1` bytes where `k` is the number of leading
bytes shared by the (zero-padded) ids within the first `idSize` bytes.
(Without the id-length bound the claim fails, see the counterexample.) -/
theorem bound_minimality (idSize : Nat) (prev curr B : XorElem)
    (hB : B = getMinimalBound idSize prev curr)
    (hlt : elemLt prev curr = true)
    (hc : curr.id.length ≤ idSize) :
    (elemLt prev B = true ∧ (elemLt B curr = true ∨ B = curr) ∧ B.id.length ≤ idSize) ∧
    (curr.timestamp ≠ prev.timestamp → B = ⟨curr.timestamp, []⟩) ∧
    (curr.timestamp = prev.timestamp →
      B = ⟨curr.timestamp, curr.id.take (countShared prev.id curr.id idSize + 1)⟩) := by
  by_cases hts : curr.timestamp = prev.timestamp
  · have hBval : B = ⟨curr.timestamp, curr.id.take (countShared prev.id curr.id idSize + 1)⟩ := by
      rw [hB, getMinimalBound, if_neg (by omega)]
    have hlex : lexLt prev.id curr.id = true := by
      rw [elemLt, if_neg (by omega)] at hlt
      exact hlt
    obtain ⟨m1, m2, m3⟩ := minimal_bound_lex idSize prev.id curr.id hc hlex
    refine ⟨⟨?_, ?_, ?_⟩, fun hne => absurd hts hne, fun _ => hBval⟩
    · rw [hBval, elemLt, if_neg (by simp; omega)]
      exact m1
    · rcases m2 with m2 | m2
      · left
        rw [hBval, elemLt, if_neg (by simp)]
        exact m2
      · right
        rw [hBval, m2]
    · rw [hBval]
      exact m3
  · have hBval : B = ⟨curr.timestamp, []⟩ := by
      rw [hB, getMinimalBound, if_pos hts]
    have htslt : prev.timestamp < curr.timestamp := by
      rw [elemLt, if_pos (by omega)] at hlt
      simpa using hlt
    refine ⟨⟨?_, ?_, ?_⟩, fun _ => hBval, fun he => absurd he hts⟩
    · rw [hBval, elemLt, if_pos (by simp; omega)]
      simpa using htslt
    · cases hcid : curr.id with
      | nil =>
        right
        rw [hBval]
        rw [← hcid]
      | cons a as =>
        left
        rw [hBval, elemLt, if_neg (by simp), hcid]
        rfl
    · rw [hBval]
      simp

/-- Witness for C5 (amended): `idSize = 8`, `prev = (0, [1])`,
`curr = (0, [2])`, `B = (0, [2])`. -/
theorem bound_minimality_witness :
    ((⟨0, [2]⟩ : XorElem) = getMinimalBound 8 ⟨0, [1]⟩ ⟨0, [2]⟩ ∧
      elemLt ⟨0, [1]⟩ ⟨0, [2]⟩ = true ∧
      (⟨0, [2]⟩ : XorElem).id.length ≤ 8) ∧
    ((elemLt ⟨0, [1]⟩ (⟨0, [2]⟩ : XorElem) = true ∧
        (elemLt (⟨0, [2]⟩ : XorElem) ⟨0, [2]⟩ = true ∨ (⟨0, [2]⟩ : XorElem) = ⟨0, [2]⟩) ∧
        (⟨0, [2]⟩ : XorElem).id.length ≤ 8) ∧
      ((⟨0, [2]⟩ : XorElem).timestamp ≠ (⟨0, [1]⟩ : XorElem).timestamp →
        (⟨0, [2]⟩ : XorElem) = ⟨(⟨0, [2]⟩ : XorElem).timestamp, []⟩) ∧
      ((⟨0, [2]⟩ : XorElem).timestamp = (⟨0, [1]⟩ : XorElem).timestamp →
        (⟨0, [2]⟩ : XorElem) = ⟨(⟨0, [2]⟩ : XorElem).timestamp,
          (⟨0, [2]⟩ : XorElem).id.take (countShared (⟨0, [1]⟩ : XorElem).id
            (⟨0, [2]⟩ : XorElem).id 8 + 1)⟩)) :=
  ⟨⟨by decide, by decide, by decide⟩,
    bound_minimality 8 ⟨0, [1]⟩ ⟨0, [2]⟩ ⟨0, [2]⟩ (by decide) (by decide) (by decide)⟩

/-! ## C4: range splitting -/

theorem sum_range_sizes (q r : Nat) : ∀ i : Nat,
    ((List.range i).map fun j => q + if j < r then 1 else 0).sum = i * q + min i r := by
  intro i
  induction i with
  | zero => simp
  | succ i ih =>
    rw [List.range_succ, List.map_append, List.sum_append, ih]
    have hq : (i + 1) * q = i * q + q := by ring
    rw [hq]
    simp only [List.map_cons, List.map_nil, List.sum_cons, List.sum_nil]
    split_ifs with h <;> omega

theorem bucketSizes_length (n : Nat) : (bucketSizes n).length = 16 := by
  simp [bucketSizes]

theorem bucketSizes_take_sum (n i : Nat) (h : i ≤ 16) :
    ((bucketSizes n).take i).sum = i * (n / 16) + min i (n % 16) := by
  rw [bucketSizes, ← List.map_take, List.take_range]
  have hmin : min i 16 = i := by omega
  rw [hmin]
  exact sum_range_sizes (n / 16) (n % 16) i

theorem bucketSizes_getD (n i : Nat) (h : i < 16) :
    (bucketSizes n).getD i 0 = n / 16 + if i < n % 16 then 1 else 0 := by
  rw [bucketSizes]
  rw [List.getD_eq_getElem _ _ (by simpa using h)]
  simp

theorem sliceAt_zero (xs : List XorElem) (s : Nat) (sizes' : List Nat) :
    sliceAt xs (s :: sizes') 0 = xs.take s := by
  simp [sliceAt]

theorem sliceAt_cons (xs : List XorElem) (s : Nat) (sizes' : List Nat) (i : Nat) :
    sliceAt xs (s :: sizes') (i + 1) = sliceAt (xs.drop s) sizes' i := by
  rw [sliceAt, sliceAt, List.take_succ_cons, List.sum_cons, List.getD_cons_succ,
    ← List.drop_drop]

theorem sepAt_cons (idSize : Nat) (xs : List XorElem) (s : Nat) (sizes' : List Nat) (i : Nat) :
    sepAt idSize xs (s :: sizes') (i + 1) = sepAt idSize (xs.drop s) sizes' i := by
  rw [sepAt, sepAt, sliceAt_cons, sliceAt_cons]

/-- The sequential per-bucket emission of `splitRange` (`fpRecords` over the
sequentially consumed chunks) equals the closed-form description: record `i`
covers slice `i`, starts at the previous record's end (the first at
`start`), and ends at the separating bound (the last at `ub`). -/
theorem fpRecords_splitSizes (idSize : Nat) (ub : XorElem) :
    ∀ (sizes : List Nat) (xs : List XorElem) (start : XorElem), sizes ≠ [] →
      fpRecords idSize start ub (splitSizes xs sizes) =
        (List.range sizes.length).map fun i =>
          ⟨if i = 0 then start else sepAt idSize xs sizes (i - 1),
           if i = sizes.length - 1 then ub else sepAt idSize xs sizes i,
           fpPayload idSize (sliceAt xs sizes i)⟩ := by
  intro sizes
  induction sizes with
  | nil => intro xs start hne; exact absurd rfl hne
  | cons s sizes' ih =>
    intro xs start _
    cases sizes' with
    | nil =>
      show fpRecords idSize start ub [xs.take s] =
        (List.range 1).map fun i =>
          ⟨if i = 0 then start else sepAt idSize xs [s] (i - 1),
           if i = ([s] : List Nat).length - 1 then ub else sepAt idSize xs [s] i,
           fpPayload idSize (sliceAt xs [s] i)⟩
      rw [show (List.range 1 : List Nat) = [0] from rfl, List.map_cons, List.map_nil,
        fpRecords]
      simp [sliceAt_zero]
    | cons s' ss =>
      have hcons : splitSizes xs (s :: s' :: ss) =
          xs.take s :: (xs.drop s).take s' :: splitSizes ((xs.drop s).drop s') ss := by
        simp [splitSizes]
      have htail : splitSizes (xs.drop s) (s' :: ss) =
          (xs.drop s).take s' :: splitSizes ((xs.drop s).drop s') ss := by
        simp [splitSizes]
      rw [hcons, fpRecords]
      have hrec := ih (xs.drop s)
        (getMinimalBound idSize ((xs.take s).getLastD default)
          (((xs.drop s).take s').headD default)) (by simp)
      rw [htail] at hrec
      rw [hrec]
      rw [show (s :: s' :: ss).length = (s' :: ss).length + 1 from rfl,
        List.range_succ_eq_map, List.map_cons, List.map_map]
      have hsep0 : sepAt idSize xs (s :: s' :: ss) 0 =
          getMinimalBound idSize ((xs.take s).getLastD default)
            (((xs.drop s).take s').headD default) := by
        rw [sepAt, sliceAt_zero, sliceAt_cons, sliceAt_zero]
      congr 1
      apply List.map_congr_left
      intro i hi
      have hival : i < (s' :: ss).length := List.mem_range.mp hi
      show (⟨if i = 0 then
              getMinimalBound idSize ((xs.take s).getLastD default)
                (((xs.drop s).take s').headD default)
            else sepAt idSize (xs.drop s) (s' :: ss) (i - 1),
          if i = (s' :: ss).length - 1 then ub else sepAt idSize (xs.drop s) (s' :: ss) i,
          fpPayload idSize (sliceAt (xs.drop s) (s' :: ss) i)⟩ : BoundOutput) =
          ⟨if i + 1 = 0 then start else sepAt idSize xs (s :: s' :: ss) (i + 1 - 1),
           if i + 1 = (s' :: ss).length + 1 - 1 then ub
             else sepAt idSize xs (s :: s' :: ss) (i + 1),
           fpPayload idSize (sliceAt xs (s :: s' :: ss) (i + 1))⟩
      rw [if_neg (by omega : ¬ i + 1 = 0),
        show i + 1 - 1 = i from by omega,
        show (s' :: ss).length + 1 - 1 = (s' :: ss).length from by omega,
        sliceAt_cons]
      simp only [BoundOutput.mk.injEq]
      refine ⟨?_, ?_, trivial⟩
      · by_cases hcase : i = 0
        · subst hcase
          rw [if_pos rfl]
          exact hsep0.symm
        · rw [if_neg hcase]
          conv_rhs => rw [show i = i - 1 + 1 from by omega]
          rw [sepAt_cons]
      · by_cases hend : i + 1 = (s' :: ss).length
        · rw [if_pos (by omega), if_pos hend]
        · rw [if_neg (by omega), if_neg hend, sepAt_cons]

/-- Telescoping of the spec-side buckets: the first `k` buckets are exactly
the first `k * (n/16) + min k (n%16)` items. -/
theorem flatten_bucketSlice (items : List XorElem) : ∀ k : Nat,
    ((List.range k).map (bucketSlice items)).flatten =
      items.take (k * (items.length / 16) + min k (items.length % 16)) := by
  intro k
  induction k with
  | zero => simp
  | succ k ih =>
    rw [List.range_succ, List.map_append, List.flatten_append, ih]
    simp only [List.map_cons, List.map_nil, List.flatten_cons, List.flatten_nil,
      List.append_nil]
    rw [bucketSlice, ← List.take_add]
    congr 1
    have hq : (k + 1) * (items.length / 16) =
        k * (items.length / 16) + items.length / 16 := by ring
    rw [hq]
    generalize k * (items.length / 16) = m
    split_ifs with h <;> omega

/-- C4: `splitRange` is exactly the spec's description — for fewer than 32
elements a single IdList record of all (truncated) ids bounded by
`(lowerBound, upperBound)`; otherwise exactly 16 Fingerprint records, one
per bucket of the closed-form partition into 16 contiguous buckets of size
`numElems / 16` with the first `numElems % 16` buckets one item larger,
each fingerprint the XOR of the 32-byte zero-padded ids truncated to
`idSize`, the first start being `lowerBound`, each end the minimal
separating bound between a bucket's last item and the next bucket's first
item, each start the previous end, and the last end `upperBound`; and the
spec-side buckets partition the item slice (their concatenation is the
slice). -/
theorem split_range_spec (idSize : Nat) (items : List XorElem) (lb ub : XorElem) :
    splitRange idSize items lb ub = splitRangeSpec idSize items lb ub ∧
    ((List.range 16).map (bucketSlice items)).flatten = items := by
  constructor
  · by_cases hsmall : items.length < 32
    · simp only [splitRange, splitRangeSpec]
      rw [if_pos (by omega), if_pos (by omega)]
    · simp only [splitRange, splitRangeSpec]
      rw [if_neg (by omega), if_neg (by omega)]
      rw [fpRecords_splitSizes idSize ub (bucketSizes items.length) items lb
        (by simp [bucketSizes])]
      rw [bucketSizes_length]
      apply List.map_congr_left
      intro i hi
      have hi16 : i < 16 := List.mem_range.mp hi
      have hslice : ∀ j, j < 16 →
          sliceAt items (bucketSizes items.length) j = bucketSlice items j := by
        intro j hj
        rw [sliceAt, bucketSlice, bucketSizes_take_sum _ j (by omega),
          bucketSizes_getD _ j hj]
      have hsep : ∀ j, j + 1 < 16 →
          sepAt idSize items (bucketSizes items.length) j = sepBound idSize items j := by
        intro j hj
        rw [sepAt, sepBound, hslice j (by omega), hslice (j + 1) hj]
      simp only [BoundOutput.mk.injEq]
      refine ⟨?_, ?_, ?_⟩
      · by_cases hcase : i = 0
        · rw [if_pos hcase, if_pos hcase]
        · rw [if_neg hcase, if_neg hcase, hsep (i - 1) (by omega)]
      · by_cases hend : i = 15
        · rw [if_pos (by omega : i = 16 - 1), if_pos hend]
        · rw [if_neg (by omega : ¬ i = 16 - 1), if_neg hend, hsep i (by omega)]
      · rw [hslice i hi16]
  · rw [flatten_bucketSlice items 16]
    have hr : items.length % 16 < 16 := Nat.mod_lt _ (by norm_num)
    have h16 : 16 * (items.length / 16) + min 16 (items.length % 16) = items.length := by
      have := Nat.div_add_mod items.length 16
      omega
    rw [h16]
    exact List.take_length items

end Negentropy
